import Mathlib

/-!
Verification of the vector-indexing and nearest-neighbor retrieval core of a
cross-lingual question-answering system.

The embedding models, as Lean functions:
- `src/build_index.py`: `load_knowledge_base`, `create_faiss_index`, `search`, `main`
- `src/app.py`: the `/search` endpoint `search_endpoint`
- `src/create_embeddings.py`: the sentence-saving loop of `main`

Scalars are modelled as `ℤ` (exact arithmetic); the external FAISS library
calls (`IndexFlatL2.search`, `write_index`, `read_index`) are not part of the
repository's sources and are modelled from the specification, as marked on
each such definition.
-/

/-- A 2-D numpy array of shape (N, D): the column count is array metadata
(so it survives N = 0), and the rows are the data.  Rectangularity
(`NpMatrix.rect`) is an invariant of real 2-D arrays, carried as a
hypothesis where a proof needs it. -/
structure NpMatrix where
  ncols : ℕ
  rows : List (List ℤ)
deriving DecidableEq

/-- `shape[0]`: the number of rows. -/
def NpMatrix.nrows (m : NpMatrix) : ℕ := m.rows.length

/-- A real 2-D array is rectangular: every row has `ncols` entries. -/
def NpMatrix.rect (m : NpMatrix) : Prop := ∀ r ∈ m.rows, r.length = m.ncols

instance (m : NpMatrix) : Decidable m.rect := by
  unfold NpMatrix.rect; infer_instance

/-- A `faiss.IndexFlatL2`: a dimension and the flat store of added vectors. -/
structure FaissIndex where
  d : ℕ
  vectors : List (List ℤ)
deriving DecidableEq

/-- `index.ntotal`: the number of stored vectors. -/
def FaissIndex.ntotal (ix : FaissIndex) : ℕ := ix.vectors.length

/-- `create_faiss_index` (src/build_index.py, lines 35-49): reads
`dimension = embeddings.shape[1]`, constructs `faiss.IndexFlatL2(dimension)`
and adds all the embeddings.  No validation is performed. -/
def create_faiss_index (m : NpMatrix) : FaissIndex :=
  { d := m.ncols, vectors := m.rows }

/-- Squared Euclidean (L2) distance between two vectors, the metric of
`IndexFlatL2`. -/
def sqDist (q v : List ℤ) : ℤ :=
  (List.zipWith (fun a b => (a - b) * (a - b)) q v).sum

/-- The comparison used by the modelled index search: ascending distance,
ties broken by ascending id. -/
def resLE (a b : ℕ × ℤ) : Prop :=
  a.2 < b.2 ∨ (a.2 = b.2 ∧ a.1 ≤ b.1)

/-- Strict version of `resLE`: strictly ascending distance, or equal
distance and strictly ascending id. -/
def resLT (a b : ℕ × ℤ) : Prop :=
  a.2 < b.2 ∨ (a.2 = b.2 ∧ a.1 < b.1)

instance : DecidableRel resLE := by
  unfold resLE; infer_instance

instance : DecidableRel resLT := by
  unfold resLT; infer_instance

instance : IsTotal (ℕ × ℤ) resLE := by
  constructor
  intro a b
  rcases lt_trichotomy a.2 b.2 with h | h | h
  · exact Or.inl (Or.inl h)
  · rcases Nat.le_total a.1 b.1 with h1 | h1
    · exact Or.inl (Or.inr ⟨h, h1⟩)
    · exact Or.inr (Or.inr ⟨h.symm, h1⟩)
  · exact Or.inr (Or.inl h)

instance : IsTrans (ℕ × ℤ) resLE := by
  constructor
  intro a b c hab hbc
  rcases hab with h1 | ⟨h1, h1'⟩ <;> rcases hbc with h2 | ⟨h2, h2'⟩
  · exact Or.inl (h1.trans h2)
  · exact Or.inl (h2 ▸ h1)
  · exact Or.inl (h1 ▸ h2)
  · exact Or.inr ⟨h1.trans h2, h1'.trans h2'⟩

/-- The (id, distance) pair for every stored vector of the index, in id
order. -/
def searchCandidates (ix : FaissIndex) (q : List ℤ) : List (ℕ × ℤ) :=
  (List.range ix.vectors.length).map
    (fun i => (i, sqDist q (ix.vectors.getD i [])))

/-- Modelled from the spec: `faiss.IndexFlatL2.search` is not part of the
repository's sources.  Per §4.3 it computes the squared-L2 distance from the
query to every stored vector and returns the `min(k, N)` smallest distances
sorted ascending, ties broken by ascending id; per the stated policy,
`k <= 0` yields the empty list.  `k` is an integer so that negative values
are representable. -/
def faissSearch (ix : FaissIndex) (q : List ℤ) (k : ℤ) : List (ℕ × ℤ) :=
  (List.insertionSort resLE (searchCandidates ix q)).take k.toNat

/-- Modelled from the spec: `faiss.write_index` is not part of the
repository's sources.  It serializes the index to an opaque blob; per §6 the
blob recoverably stores the shape and the row-major flat data. -/
def write_index (ix : FaissIndex) : ℕ × ℕ × List ℤ :=
  (ix.d, ix.ntotal, ix.vectors.flatten)

/-- Split a flat list into `n` consecutive rows of `d` entries each. -/
def chunkN : ℕ → ℕ → List ℤ → List (List ℤ)
  | 0, _, _ => []
  | n + 1, d, xs => xs.take d :: chunkN n d (xs.drop d)

/-- Modelled from the spec: `faiss.read_index` is not part of the
repository's sources.  It deserializes the blob produced by `write_index`
back into an index. -/
def read_index (b : ℕ × ℕ × List ℤ) : FaissIndex :=
  { d := b.1, vectors := chunkN b.2.1 b.1 b.2.2 }

/-- The whitespace characters removed by Python's `str.strip()` (ASCII
range). -/
def isPySpace (c : Char) : Bool :=
  c = ' ' || c = '\t' || c = '\n' || c = '\r' || c = '\x0b' || c = '\x0c'

/-- Python's `line.strip()`: remove leading and trailing whitespace. -/
def pyStrip (s : String) : String :=
  ⟨((s.data.dropWhile isPySpace).reverse.dropWhile isPySpace).reverse⟩

/-- Split a character list at every line boundary of Python's text-mode
universal newlines: a line ends at a bare LF, a bare CR, or a CRLF pair
(counted as a single boundary).  The terminator characters are dropped
(they are about to be stripped anyway). -/
def splitNL : List Char → List (List Char)
  | [] => [[]]
  | '\n' :: rest => [] :: splitNL rest
  | '\r' :: '\n' :: rest => [] :: splitNL rest
  | '\r' :: rest => [] :: splitNL rest
  | c :: rest =>
    match splitNL rest with
    | [] => [[c]]
    | l :: ls => (c :: l) :: ls

/-- Python's text-mode `f.readlines()` followed by per-line processing: the
text is split at universal-newline boundaries (LF, CR, CRLF) and a trailing
empty segment (from a final terminator, or an empty file) yields no line. -/
def pyReadLines (s : String) : List String :=
  let parts := splitNL s.data
  let parts := if parts.getLast? = some [] then parts.dropLast else parts
  parts.map (fun cs => ⟨cs⟩)

/-- `load_knowledge_base` (src/build_index.py, lines 18-33): if either
artifact file is missing, print an error and return `(None, None)`;
otherwise load the embeddings and read the sentence file line by line,
stripping each line.  The filesystem is modelled by the two `Option`
arguments (a present embeddings file holds a matrix; a present sentence
file holds its text). -/
def load_knowledge_base (embFile : Option NpMatrix) (sentFile : Option String) :
    Option (NpMatrix × List String) :=
  match embFile, sentFile with
  | some e, some s => some (e, (pyReadLines s).map pyStrip)
  | _, _ => none

/-- The sentence-saving loop of `main` (src/create_embeddings.py, lines
71-73): each sentence is written followed by a newline. -/
def saveSentences (ss : List String) : String :=
  ⟨(ss.map (fun s => s.data ++ ['\n'])).flatten⟩

/-- The sentence-loading half of `load_knowledge_base` (src/build_index.py,
lines 30-31): read the file's lines and strip each. -/
def loadSentences (content : String) : List String :=
  (pyReadLines content).map pyStrip

/-- `search` (src/build_index.py, lines 51-81): encode the query text, search
the index, and join each returned id with its sentence.  The encoder is an
external collaborator, passed as a function. -/
def search (encode : String → List ℤ) (ix : FaissIndex) (sentences : List String)
    (query_text : String) (top_k : ℤ) : List (String × ℤ) :=
  let query_embedding := encode query_text
  (faissSearch ix query_embedding top_k).map
    (fun p => (sentences.getD p.1 "", p.2))

/-- One JSON object of the `/search` response (src/app.py, lines 180-186). -/
structure SearchResult where
  sentence : String
  translation : String
  score : String
deriving DecidableEq

/-- Python's `f"{x:.4f}"` on the exactly-represented values produced here:
fixed four-decimal rendering of an integer distance. -/
def fmt4 (x : ℤ) : String :=
  (if x < 0 then "-" else "") ++ toString x.natAbs ++ ".0000"

/-- `search_endpoint` (src/app.py, lines 165-188): `top_k` is fixed at 5;
`if not query_text` short-circuits exactly the empty string; otherwise the
query is encoded, the index is searched, and each id is joined with its
German sentence and English translation, the distance formatted to four
decimals.  The second component records whether the encoder (and index)
was invoked, making the short-circuit observable. -/
def search_endpoint (encode : String → List ℤ) (ix : FaissIndex)
    (sentences english : List String) (query_text : String) :
    List SearchResult × Bool :=
  if query_text = "" then ([], false)
  else
    let query_embedding := encode query_text
    let pairs := faissSearch ix query_embedding 5
    (pairs.map (fun p =>
      { sentence := sentences.getD p.1 ""
        translation := english.getD p.1 ""
        score := fmt4 p.2 }), true)

/-- `search_endpoint` with fallible collaborators: the encoder and the index
search may raise (modelled as `Except`); an exception propagates out of the
handler unchanged, exactly as Python control flow aborts the request before
the result list is built. -/
def search_endpointE (encode : String → Except String (List ℤ))
    (isearch : List ℤ → Except String (List (ℕ × ℤ)))
    (sentences english : List String) (query_text : String) :
    Except String (List SearchResult) :=
  if query_text = "" then .ok []
  else do
    let query_embedding ← encode query_text
    let pairs ← isearch query_embedding
    .ok (pairs.map (fun p =>
      { sentence := sentences.getD p.1 ""
        translation := english.getD p.1 ""
        score := fmt4 p.2 }))

/-! ### Helper lemmas -/

theorem searchCandidates_length (ix : FaissIndex) (q : List ℤ) :
    (searchCandidates ix q).length = ix.ntotal := by
  simp [searchCandidates, FaissIndex.ntotal]

theorem searchCandidates_pairwise_ne (ix : FaissIndex) (q : List ℤ) :
    (searchCandidates ix q).Pairwise (fun a b => a.1 ≠ b.1) := by
  unfold searchCandidates
  refine List.pairwise_map.mpr ?_
  exact (List.pairwise_lt_range _).imp (fun h => Nat.ne_of_lt h)

theorem searchCandidates_mem {ix : FaissIndex} {q : List ℤ} {p : ℕ × ℤ}
    (hp : p ∈ searchCandidates ix q) :
    p.1 < ix.ntotal ∧ p.2 = sqDist q (ix.vectors.getD p.1 []) := by
  unfold searchCandidates at hp
  obtain ⟨i, hi, rfl⟩ := List.mem_map.mp hp
  exact ⟨List.mem_range.mp hi, rfl⟩

theorem mem_searchCandidates {ix : FaissIndex} {q : List ℤ} {i : ℕ}
    (hi : i < ix.ntotal) :
    (i, sqDist q (ix.vectors.getD i [])) ∈ searchCandidates ix q := by
  unfold searchCandidates
  exact List.mem_map.mpr ⟨i, List.mem_range.mpr hi, rfl⟩

theorem pairwise_and_of {α : Type} {R S : α → α → Prop} :
    ∀ {l : List α}, l.Pairwise R → l.Pairwise S →
      l.Pairwise (fun a b => R a b ∧ S a b) := by
  intro l hR hS
  induction l with
  | nil => exact List.Pairwise.nil
  | cons a l ih =>
    rw [List.pairwise_cons] at hR hS ⊢
    exact ⟨fun b hb => ⟨hR.1 b hb, hS.1 b hb⟩, ih hR.2 hS.2⟩

theorem resLE_and_fst_ne {a b : ℕ × ℤ} (h : resLE a b ∧ a.1 ≠ b.1) :
    resLT a b := by
  obtain ⟨hle | ⟨heq, hle⟩, hne⟩ := h
  · exact Or.inl hle
  · exact Or.inr ⟨heq, Nat.lt_of_le_of_ne hle hne⟩

theorem sqDist_self (v : List ℤ) : sqDist v v = 0 := by
  induction v with
  | nil => rfl
  | cons a l ih =>
    simp only [sqDist, List.zipWith_cons_cons, List.sum_cons] at ih ⊢
    rw [ih]
    ring

theorem sqDist_nonneg (q v : List ℤ) : 0 ≤ sqDist q v := by
  induction q generalizing v with
  | nil => cases v <;> simp [sqDist]
  | cons a l ih =>
    cases v with
    | nil => simp [sqDist]
    | cons b w =>
      simp only [sqDist, List.zipWith_cons_cons, List.sum_cons]
      exact add_nonneg (mul_self_nonneg _) (ih w)

theorem sqDist_eq_zero {q v : List ℤ} (hlen : q.length = v.length)
    (h : sqDist q v = 0) : q = v := by
  induction q generalizing v with
  | nil =>
    cases v with
    | nil => rfl
    | cons b w => simp at hlen
  | cons a l ih =>
    cases v with
    | nil => simp at hlen
    | cons b w =>
      have h' : (a - b) * (a - b) + sqDist l w = 0 := by
        simpa [sqDist, List.zipWith_cons_cons] using h
      have h1 : (0:ℤ) ≤ (a - b) * (a - b) := mul_self_nonneg _
      have h2 : (0:ℤ) ≤ sqDist l w := sqDist_nonneg l w
      have hab : (a - b) * (a - b) = 0 := by linarith
      have hrest : sqDist l w = 0 := by linarith
      have hb : a = b := sub_eq_zero.mp (mul_self_eq_zero.mp hab)
      simp only [List.length_cons, Nat.add_right_cancel_iff] at hlen
      rw [hb, ih hlen hrest]

theorem chunkN_flatten : ∀ (rows : List (List ℤ)) (d : ℕ),
    (∀ r ∈ rows, r.length = d) → chunkN rows.length d rows.flatten = rows := by
  intro rows d h
  induction rows with
  | nil => rfl
  | cons r rs ih =>
    have hr : r.length = d := h r (List.mem_cons_self r rs)
    simp only [List.length_cons, List.flatten_cons, chunkN]
    rw [List.take_left' hr, List.drop_left' hr]
    rw [ih (fun x hx => h x (List.mem_cons_of_mem r hx))]

theorem splitNL_ne_nil (cs : List Char) : splitNL cs ≠ [] := by
  cases cs with
  | nil => simp [splitNL]
  | cons c rest =>
    by_cases hc : c = '\n'
    · subst hc; simp [splitNL]
    · by_cases hcr : c = '\r'
      · subst hcr
        cases rest with
        | nil => simp [splitNL]
        | cons c2 rest2 =>
          by_cases h2 : c2 = '\n'
          · subst h2; simp [splitNL]
          · simp [splitNL, h2]
      · rw [splitNL.eq_5 c rest (fun h => hc h) (fun _ h _ => hcr h)
          (fun h => hcr h)]
        cases splitNL rest <;> simp

theorem splitNL_append_newline :
    ∀ (cs rest : List Char), '\n' ∉ cs → '\r' ∉ cs →
      splitNL (cs ++ '\n' :: rest) = cs :: splitNL rest := by
  intro cs rest h hr
  induction cs with
  | nil => simp [splitNL]
  | cons c cs' ih =>
    have hc : c ≠ '\n' := fun hc => h (hc ▸ List.mem_cons_self c cs')
    have hcr : c ≠ '\r' := fun hcr => hr (hcr ▸ List.mem_cons_self c cs')
    have h' : '\n' ∉ cs' := fun hm => h (List.mem_cons_of_mem c hm)
    have hr' : '\r' ∉ cs' := fun hm => hr (List.mem_cons_of_mem c hm)
    rw [List.cons_append]
    rw [splitNL.eq_5 c (cs' ++ '\n' :: rest) (fun hx => hc hx)
      (fun _ hx _ => hcr hx) (fun hx => hcr hx)]
    rw [ih h' hr']

theorem splitNL_save (ss : List String) (h : ∀ s ∈ ss, '\n' ∉ s.data)
    (hr : ∀ s ∈ ss, '\r' ∉ s.data) :
    splitNL ((ss.map (fun s => s.data ++ ['\n'])).flatten) =
      ss.map (fun s => s.data) ++ [[]] := by
  induction ss with
  | nil => rfl
  | cons s ss' ih =>
    have hs : '\n' ∉ s.data := h s (List.mem_cons_self s ss')
    have hsr : '\r' ∉ s.data := hr s (List.mem_cons_self s ss')
    have h' : ∀ x ∈ ss', '\n' ∉ x.data := fun x hx => h x (List.mem_cons_of_mem s hx)
    have hr' : ∀ x ∈ ss', '\r' ∉ x.data := fun x hx => hr x (List.mem_cons_of_mem s hx)
    simp only [List.map_cons, List.flatten_cons, List.append_assoc,
      List.singleton_append]
    rw [splitNL_append_newline _ _ hs hsr, ih h' hr']
    simp

/-! ### Claim theorems -/

/-- Claim C1: for every built index, every query vector of the index's
dimension and every k > 0, the search results are strictly sorted by
ascending distance with ties between equal distances broken by ascending id
(so the output is a deterministic function of index, query and k). -/
theorem C1_search_sorted (ix : FaissIndex) (q : List ℤ) (k : ℤ)
    (_hq : q.length = ix.d) (_hk : 0 < k) :
    (faissSearch ix q k).Pairwise resLT := by
  unfold faissSearch
  have hsorted : (List.insertionSort resLE (searchCandidates ix q)).Pairwise resLE :=
    List.sorted_insertionSort resLE (searchCandidates ix q)
  have hperm := List.perm_insertionSort resLE (searchCandidates ix q)
  have hne : (List.insertionSort resLE (searchCandidates ix q)).Pairwise
      (fun a b => a.1 ≠ b.1) :=
    (hperm.pairwise_iff (fun h => Ne.symm h)).mpr (searchCandidates_pairwise_ne ix q)
  have hstrict := (pairwise_and_of hsorted hne).imp resLE_and_fst_ne
  exact hstrict.sublist (List.take_sublist _ _)

theorem C1_search_sorted_witness :
    ([1] : List ℤ).length = (FaissIndex.mk 1 [[0], [2]]).d ∧ (0:ℤ) < 2 ∧
      (faissSearch ⟨1, [[0], [2]]⟩ [1] 2).Pairwise resLT :=
  ⟨by decide, by decide, C1_search_sorted ⟨1, [[0], [2]]⟩ [1] 2 (by decide) (by decide)⟩

/-- Claim C2: for an index over N > 0 vectors, a query of the index's
dimension and k > 0, the search returns exactly min(k, N) results and every
returned id lies in [0, N). -/
theorem C2_search_cardinality (ix : FaissIndex) (q : List ℤ) (k : ℤ)
    (_hq : q.length = ix.d) (_hk : 0 < k) (_hN : 0 < ix.ntotal) :
    (faissSearch ix q k).length = min k.toNat ix.ntotal ∧
      ∀ p ∈ faissSearch ix q k, p.1 < ix.ntotal := by
  constructor
  · unfold faissSearch
    rw [List.length_take, (List.perm_insertionSort resLE _).length_eq,
      searchCandidates_length]
  · intro p hp
    unfold faissSearch at hp
    have hp1 : p ∈ List.insertionSort resLE (searchCandidates ix q) :=
      (List.take_sublist _ _).subset hp
    have hp2 : p ∈ searchCandidates ix q :=
      (List.perm_insertionSort resLE _).subset hp1
    exact (searchCandidates_mem hp2).1

theorem C2_search_cardinality_witness :
    (faissSearch ⟨1, [[0], [2], [5]]⟩ [1] 2).length =
        min (2:ℤ).toNat (FaissIndex.mk 1 [[0], [2], [5]]).ntotal ∧
      ∀ p ∈ faissSearch ⟨1, [[0], [2], [5]]⟩ [1] 2,
        p.1 < (FaissIndex.mk 1 [[0], [2], [5]]).ntotal :=
  C2_search_cardinality ⟨1, [[0], [2], [5]]⟩ [1] 2 (by decide) (by decide) (by decide)

/-- Claim C3: persisting the index built from a matrix and loading it back
yields an index whose search results are identical (same ids, distances and
order) to the original in-memory index, for every query and k. -/
theorem C3_persistence_roundtrip (M : NpMatrix) (hrect : M.rect)
    (q : List ℤ) (k : ℤ) :
    faissSearch (read_index (write_index (create_faiss_index M))) q k =
      faissSearch (create_faiss_index M) q k := by
  have hid : read_index (write_index (create_faiss_index M)) =
      create_faiss_index M := by
    unfold read_index write_index create_faiss_index FaissIndex.ntotal
    simp only
    congr 1
    exact chunkN_flatten M.rows M.ncols hrect
  rw [hid]

theorem C3_persistence_roundtrip_witness :
    (NpMatrix.mk 1 [[2], [3]]).rect ∧
      faissSearch (read_index (write_index (create_faiss_index ⟨1, [[2], [3]]⟩))) [0] 2 =
        faissSearch (create_faiss_index ⟨1, [[2], [3]]⟩) [0] 2 :=
  ⟨by decide, C3_persistence_roundtrip ⟨1, [[2], [3]]⟩ (by decide) [0] 2⟩

/-- Claim C4, counterexample: the query " " is whitespace-only but not
empty, so `if not query_text` does not short-circuit: the encoder (and
index) is invoked and the result is not the empty list. -/
theorem C4_counterexample :
    pyStrip " " = "" ∧
      (search_endpoint (fun _ => [0]) ⟨1, [[0]]⟩ ["s"] ["e"] " ").2 = true ∧
      search_endpoint (fun _ => [0]) ⟨1, [[0]]⟩ ["s"] ["e"] " " ≠ ([], false) := by
  refine ⟨by decide, by decide, by decide⟩

/-- Claim C4, amended: only the exactly-empty query text short-circuits to
an empty result list without invoking the encoder; every nonempty query
text, including whitespace-only ones, does invoke the encoder. -/
theorem C4_empty_query_short_circuit (enc : String → List ℤ) (ix : FaissIndex)
    (ss es : List String) :
    search_endpoint enc ix ss es "" = ([], false) ∧
      ∀ q : String, q ≠ "" → (search_endpoint enc ix ss es q).2 = true := by
  constructor
  · rfl
  · intro q hq
    simp [search_endpoint, hq]

theorem C4_empty_query_short_circuit_witness :
    search_endpoint (fun _ => [0]) ⟨1, [[0]]⟩ ["s"] ["e"] "" = ([], false) ∧
      (search_endpoint (fun _ => [0]) ⟨1, [[0]]⟩ ["s"] ["e"] "x").2 = true :=
  ⟨(C4_empty_query_short_circuit (fun _ => [0]) ⟨1, [[0]]⟩ ["s"] ["e"]).1,
    (C4_empty_query_short_circuit (fun _ => [0]) ⟨1, [[0]]⟩ ["s"] ["e"]).2 "x"
      (by decide)⟩

/-- Claim C5, counterexample: with the duplicate-row matrix [[0], [0]],
querying with row 1 at k = 1 returns id 0 (the tie at distance 0 is broken
by ascending id), not id 1 as the claim requires. -/
theorem C5_counterexample :
    (FaissIndex.mk 1 [[0], [0]]).vectors.getD 1 [] = [0] ∧
      faissSearch ⟨1, [[0], [0]]⟩ [0] 1 = [(0, 0)] ∧
      faissSearch ⟨1, [[0], [0]]⟩ [0] 1 ≠ [(1, 0)] := by
  refine ⟨by decide, by decide, by decide⟩

/-- Claim C5, amended: for an index whose rows are rectangular and pairwise
distinct, searching with row i at k = 1 returns exactly [(i, 0)]. -/
theorem C5_self_similarity (ix : FaissIndex) (i : ℕ)
    (hrect : ∀ v ∈ ix.vectors, v.length = ix.d)
    (hnd : ix.vectors.Nodup) (hi : i < ix.ntotal) :
    faissSearch ix (ix.vectors.getD i []) 1 = [(i, 0)] := by
  set q := ix.vectors.getD i [] with hqdef
  have hq0 : sqDist q (ix.vectors.getD i []) = 0 := sqDist_self q
  have hmem : (i, (0:ℤ)) ∈ searchCandidates ix q := by
    have hm := mem_searchCandidates (q := q) hi
    rwa [hq0] at hm
  have hperm := List.perm_insertionSort resLE (searchCandidates ix q)
  have hmem' : (i, (0:ℤ)) ∈ List.insertionSort resLE (searchCandidates ix q) :=
    hperm.mem_iff.mpr hmem
  have hsorted : (List.insertionSort resLE (searchCandidates ix q)).Pairwise resLE :=
    List.sorted_insertionSort resLE (searchCandidates ix q)
  have hne : (List.insertionSort resLE (searchCandidates ix q)).Pairwise
      (fun a b => a.1 ≠ b.1) :=
    (hperm.pairwise_iff (fun h => Ne.symm h)).mpr (searchCandidates_pairwise_ne ix q)
  cases hs : List.insertionSort resLE (searchCandidates ix q) with
  | nil => rw [hs] at hmem'; exact absurd hmem' (List.not_mem_nil _)
  | cons hd t =>
    have hres : faissSearch ix q 1 = [hd] := by
      unfold faissSearch
      rw [hs]
      rfl
    rw [hres]
    rw [hs] at hmem' hsorted hne
    rcases List.mem_cons.mp hmem' with heq | htail
    · rw [← heq]
    · exfalso
      have hhd : hd ∈ searchCandidates ix q :=
        hperm.subset (hs ▸ List.mem_cons_self hd t)
      obtain ⟨hlt, hdist⟩ := searchCandidates_mem hhd
      have hle : resLE hd (i, 0) := (List.pairwise_cons.mp hsorted).1 _ htail
      have hnonneg : 0 ≤ hd.2 := hdist ▸ sqDist_nonneg _ _
      have hfstne : hd.1 ≠ i := (List.pairwise_cons.mp hne).1 _ htail
      rcases hle with hlt2 | ⟨heq2, _⟩
      · exact absurd hlt2 (not_lt.mpr hnonneg)
      · have hzero : sqDist q (ix.vectors.getD hd.1 []) = 0 := by
          rw [← hdist]; exact heq2
        have hi' : i < ix.vectors.length := hi
        have hh' : hd.1 < ix.vectors.length := hlt
        have hqmem : q ∈ ix.vectors := by
          rw [hqdef, List.getD_eq_getElem _ _ hi']
          exact List.getElem_mem hi'
        have hhmem : ix.vectors.getD hd.1 [] ∈ ix.vectors := by
          rw [List.getD_eq_getElem _ _ hh']
          exact List.getElem_mem hh'
        have hlen : q.length = (ix.vectors.getD hd.1 []).length := by
          rw [hrect q hqmem, hrect _ hhmem]
        have hqe : q = ix.vectors.getD hd.1 [] := sqDist_eq_zero hlen hzero
        have hgetEq : ix.vectors[hd.1] = ix.vectors[i] := by
          rw [← List.getD_eq_getElem ix.vectors [] hh',
            ← List.getD_eq_getElem ix.vectors [] hi', ← hqe, hqdef]
        exact hfstne (hnd.getElem_inj_iff.mp hgetEq)

theorem C5_self_similarity_witness :
    1 < (FaissIndex.mk 1 [[0], [1]]).ntotal ∧
      faissSearch ⟨1, [[0], [1]]⟩ ((FaissIndex.mk 1 [[0], [1]]).vectors.getD 1 []) 1 =
        [(1, 0)] :=
  ⟨by decide, C5_self_similarity ⟨1, [[0], [1]]⟩ 1 (by decide) (by decide) (by decide)⟩

/-- Claim C6: for every built index and query vector, searching with k = 0
or any negative k returns the empty list (and, being a total function,
raises no error). -/
theorem C6_nonpositive_k (ix : FaissIndex) (q : List ℤ) (k : ℤ) (hk : k ≤ 0) :
    faissSearch ix q k = [] := by
  unfold faissSearch
  rw [Int.toNat_of_nonpos hk]
  rfl

theorem C6_nonpositive_k_witness :
    (-1 : ℤ) ≤ 0 ∧ faissSearch ⟨1, [[5]]⟩ [0] (-1) = [] :=
  ⟨by decide, C6_nonpositive_k ⟨1, [[5]]⟩ [0] (-1) (by decide)⟩

/-- Claim C7, counterexample: `create_faiss_index` performs no validation;
on the zero-row matrix of dimension 3 it succeeds and returns an index with
0 elements instead of failing with EmptyCorpusError. -/
theorem C7_counterexample :
    (NpMatrix.mk 3 []).nrows = 0 ∧
      create_faiss_index ⟨3, []⟩ = ⟨3, []⟩ ∧
      (create_faiss_index ⟨3, []⟩).ntotal = 0 := by
  refine ⟨by decide, by decide, by decide⟩

/-- Claim C7, amended: Build performs no validation and never fails: on
every 2-D matrix (ragged input is unrepresentable in a real 2-D array),
including the zero-row one, it returns an index whose element count equals
the matrix's row count and whose dimension equals its column count; no
EmptyCorpusError or DimensionMismatchError exists in the code. -/
theorem C7_build_no_validation (m : NpMatrix) :
    (create_faiss_index m).ntotal = m.nrows ∧ (create_faiss_index m).d = m.ncols :=
  ⟨rfl, rfl⟩

/-- Claim C8, counterexample: `load_knowledge_base` performs no integrity
check: with a 3-row embedding matrix and a 2-sentence file it succeeds and
returns the misaligned pair instead of failing with IntegrityError. -/
theorem C8_counterexample :
    load_knowledge_base (some ⟨1, [[0], [0], [0]]⟩) (some "a\nb\n") =
        some (⟨1, [[0], [0], [0]]⟩, ["a", "b"]) ∧
      (NpMatrix.mk 1 [[0], [0], [0]]).nrows = 3 := by
  refine ⟨by decide, by decide⟩

/-- Claim C8, amended: Load returns the None sentinel (printing a message,
not raising LoadError) whenever an artifact file is missing, and otherwise
always succeeds, returning the matrix together with the stripped lines of
the sentence file — no comparison between the sentence count and the matrix
row count is performed. -/
theorem C8_load_no_integrity_check (m : NpMatrix) (s : String)
    (ef : Option NpMatrix) (sf : Option String) :
    load_knowledge_base (some m) (some s) = some (m, loadSentences s) ∧
      load_knowledge_base none sf = none ∧
      load_knowledge_base ef none = none := by
  refine ⟨rfl, rfl, ?_⟩
  cases ef <;> rfl

/-- Claim C9: if the encoder or the index search fails on a non-empty
query, the request surfaces exactly that one error and returns no result
list at all — a partially assembled result list is never produced. -/
theorem C9_failure_atomicity (enc : String → Except String (List ℤ))
    (isearch : List ℤ → Except String (List (ℕ × ℤ)))
    (ss es : List String) (q e : String) (hq : q ≠ "")
    (hfail : enc q = Except.error e ∨
      ∃ v, enc q = Except.ok v ∧ isearch v = Except.error e) :
    search_endpointE enc isearch ss es q = Except.error e := by
  unfold search_endpointE
  rw [if_neg hq]
  rcases hfail with h | ⟨v, h1, h2⟩
  · rw [h]; rfl
  · rw [h1]
    show (isearch v).bind _ = Except.error e
    rw [h2]
    rfl

theorem C9_failure_atomicity_witness :
    (" x" : String) ≠ "" ∧
      search_endpointE (fun _ => Except.error "boom") (fun _ => Except.ok [])
          [] [] " x" = Except.error "boom" :=
  ⟨by decide,
    C9_failure_atomicity (fun _ => Except.error "boom") (fun _ => Except.ok [])
      [] [] " x" "boom" (by decide) (Or.inl rfl)⟩

/-- Claim C10, counterexample: a sentence with an embedded line terminator
— a newline, or equally a bare carriage return under text-mode universal
newlines — is split into several lines on the way back, so the loaded list
does not equal the whitespace-stripped form of the saved list; the claim's
universal clause fails there. -/
theorem C10_counterexample :
    loadSentences (saveSentences ["a\nb", "c"]) = ["a", "b", "c"] ∧
      loadSentences (saveSentences ["a\nb", "c"]) ≠
        (["a\nb", "c"] : List String).map pyStrip ∧
      loadSentences (saveSentences ["a\rb", "c"]) = ["a", "b", "c"] ∧
      loadSentences (saveSentences ["a\rb", "c"]) ≠
        (["a\rb", "c"] : List String).map pyStrip := by
  refine ⟨by decide, by decide, by decide, by decide⟩

/-- Claim C10, amended: for every sentence list without embedded line
terminators (neither LF nor CR, both of which end a line under text-mode
universal newlines), saving and loading back returns the
whitespace-stripped form of each saved sentence (so the round trip is the
identity exactly when every sentence is already stripped). -/
theorem C10_save_load_strips (ss : List String) (h : ∀ s ∈ ss, '\n' ∉ s.data)
    (hr : ∀ s ∈ ss, '\r' ∉ s.data) :
    loadSentences (saveSentences ss) = ss.map pyStrip := by
  simp only [loadSentences, pyReadLines, saveSentences]
  rw [splitNL_save ss h hr]
  rw [List.getLast?_concat]
  simp only [if_pos rfl, List.dropLast_concat, List.map_map, if_true]
  rfl

theorem C10_save_load_strips_witness :
    (∀ s ∈ ([" a", "b"] : List String), '\n' ∉ s.data ∧ '\r' ∉ s.data) ∧
      loadSentences (saveSentences [" a", "b"]) =
        ([" a", "b"] : List String).map pyStrip :=
  ⟨by decide, C10_save_load_strips [" a", "b"] (by decide) (by decide)⟩
